import Mathlib

/-!
# Verification of `bitvec_padded` (`src/lib.rs`)

A shallow embedding of the `bitvec_padded` Rust crate: a growable sequence of
bits packed MSB-first into bytes, with an explicit `last_byte_padding` counter
for the unused low-order bits of the final byte, plus a `[padding byte][raw
bytes]` serialization format.

Modelling conventions:
* A Rust `u8` byte is a `Nat`; all byte-level operations of the source
  (`|`, `<<`, `& mask != 0`) are translated with `Nat.lor`, `Nat.shiftLeft`
  and `Nat.testBit`.  Under the structure invariant (`last_byte_padding ≤ 7`)
  none of the source's `u8` operations can overflow, so `Nat` arithmetic
  agrees with `u8` arithmetic everywhere the theorems use it.
* `usize` and `u8` subtractions that the source leaves unguarded
  (`raw_data.len() * 8 - last_byte_padding`, `8 - last_byte_padding`) are
  modelled explicitly: the `Nat` subtraction truncates, and where a claim is
  about the underflow itself the underflow condition
  (`last_byte_padding > ...`) is stated directly.  `BitIterator.next` returns
  `none` exactly when the checked `u8` subtraction `8 - last_byte_padding`
  would underflow (Rust's checked/debug semantics: an arithmetic overflow
  aborts the computation), and `some (item, state)` otherwise.
* `Vec<u8>` / `&[u8]` are `List Nat`; capacity reservations
  (`Vec::with_capacity`, `Vec::reserve`) are allocation hints with no
  observable effect on contents, so they vanish in the model (the helper
  `least_bytes_repr_for_bits` is still translated).
* `Result<T, ()>` is `Except Unit T`.
-/

namespace BitvecPadded

/-- Bytes are natural numbers; the invariant-respecting operations keep them
below 256 exactly as the source's `u8` arithmetic does. -/
abbrev Byte := Nat

/-- `struct BitVec { raw_data: Vec<u8>, last_byte_padding: u8 }`
(`src/lib.rs:6-14`). -/
structure BitVec where
  raw_data : List Byte
  last_byte_padding : Nat
deriving DecidableEq, Repr

/-- `struct BitView<'a> { raw_data: &'a [u8], last_byte_padding: u8 }`
(`src/lib.rs:173-178`).  The borrow is modelled by an own copy of the list:
all view operations are read-only. -/
structure BitView where
  raw_data : List Byte
  last_byte_padding : Nat
deriving DecidableEq, Repr

/-- `struct BitIterator<'a> { bits: BitView<'a>, i: usize }`
(`src/lib.rs:257-262`). -/
structure BitIterator where
  bits : BitView
  i : Nat
deriving DecidableEq, Repr

/-- `least_bytes_repr_for_bits` (`src/lib.rs:166-168`):
`bit_count / 8 + (bit_count % 8 != 0) as usize`. -/
def least_bytes_repr_for_bits (bit_count : Nat) : Nat :=
  bit_count / 8 + (if bit_count % 8 ≠ 0 then 1 else 0)

/-- `BitVec::new` (`src/lib.rs:19-24`). -/
def BitVec.new : BitVec := ⟨[], 0⟩

set_option linter.unusedVariables false in
/-- `BitVec::with_capacity` (`src/lib.rs:28-33`).  The
`Vec::with_capacity(least_bytes_repr_for_bits capacity)` call only reserves
allocation; the constructed value holds no bytes and zero padding. -/
def BitVec.with_capacity (capacity : Nat) : BitVec := ⟨[], 0⟩

/-- `BitVec::len_bits` (`src/lib.rs:38-40`):
`raw_data.len() * 8 - last_byte_padding as usize`.  The `usize` subtraction is
unguarded in the source; the `Nat` subtraction truncates at 0, and the
underflow condition `last_byte_padding > raw_data.len() * 8` is stated
explicitly where a theorem is about it. -/
def BitVec.len_bits (v : BitVec) : Nat :=
  v.raw_data.length * 8 - v.last_byte_padding

/-- `BitVec::least_len_bytes` (`src/lib.rs:44-46`). -/
def BitVec.least_len_bytes (v : BitVec) : Nat :=
  v.raw_data.length

/-- `BitVec::append_bit` (`src/lib.rs:50-66`).
If `last_byte_padding == 0` a fresh byte `(bit as u8) << 7` is pushed and the
padding becomes 7; otherwise the last byte (the `last_mut().unwrap()` is
justified by the source comment: an empty vec has padding 0) receives
`|= (bit as u8) << (last_byte_padding - 1)` and the padding decrements. -/
def BitVec.append_bit (v : BitVec) (bit : Bool) : BitVec :=
  if v.last_byte_padding = 0 then
    ⟨v.raw_data ++ [(cond bit 1 0) <<< 7], 7⟩
  else
    ⟨v.raw_data.dropLast ++
      [v.raw_data.getLastD 0 ||| ((cond bit 1 0) <<< (v.last_byte_padding - 1))],
     v.last_byte_padding - 1⟩

/-- `BitVec::as_bit_view` (`src/lib.rs:94-99`). -/
def BitVec.as_bit_view (v : BitVec) : BitView :=
  ⟨v.raw_data, v.last_byte_padding⟩

/-- `BitView::len_bits` (`src/lib.rs:209-211`), same formula as
`BitVec::len_bits`. -/
def BitView.len_bits (v : BitView) : Nat :=
  v.raw_data.length * 8 - v.last_byte_padding

/-- `BitView::least_len_bytes` (`src/lib.rs:215-217`). -/
def BitView.least_len_bytes (v : BitView) : Nat :=
  v.raw_data.length

/-- `BitView::from_padded_bytes` (`src/lib.rs:192-197`): wraps any byte slice
and any padding value, with no validation. -/
def BitView.from_padded_bytes (bytes : List Byte) (last_byte_padding : Nat) : BitView :=
  ⟨bytes, last_byte_padding⟩

/-- `BitView::as_padded_bytes` (`src/lib.rs:221-226`). -/
def BitView.as_padded_bytes (v : BitView) : List Byte × Nat :=
  (v.raw_data, v.last_byte_padding)

/-- `BitVec::as_padded_bytes` (`src/lib.rs:112-117`). -/
def BitVec.as_padded_bytes (v : BitVec) : List Byte × Nat :=
  (v.raw_data, v.last_byte_padding)

/-- `<BitIterator as Iterator>::next` (`src/lib.rs:267-284`).
Outer `none` models the abort of the checked `u8` subtraction
`8 - self.bits.last_byte_padding` when it underflows (only evaluated — Rust
`&&` short-circuits — once `i / 8` equals the last byte index).
`some (none, it)` is the iterator returning `None` (exhausted),
`some (some b, it)` the iterator yielding bit `b`.
`byte & (1 << (7 - bit_in_byte_i)) != 0` is `Nat.testBit byte (7 - i % 8)`. -/
def BitIterator.next (it : BitIterator) : Option (Option Bool × BitIterator) :=
  match it.bits.raw_data[it.i / 8]? with
  | none => some (none, it)
  | some byte =>
    if it.i / 8 = it.bits.raw_data.length - 1 then
      if 8 < it.bits.last_byte_padding then
        none
      else if 8 - it.bits.last_byte_padding ≤ it.i % 8 then
        some (none, it)
      else
        some (some (byte.testBit (7 - it.i % 8)), ⟨it.bits, it.i + 1⟩)
    else
      some (some (byte.testBit (7 - it.i % 8)), ⟨it.bits, it.i + 1⟩)

/-- Draining a `BitIterator` into a list, as `Iterator::collect` /
`for bit in iter` do.  The `fuel` argument only makes the recursion
structural; every use instantiates it with `8 * raw_data.length + 1`, which
is sufficient (each yielded bit advances `i`, and the iterator is exhausted
once `i / 8` runs past the storage), so the `0 ↦ none` clause is never hit
there.  `none` propagates the underflow abort of `next`. -/
def BitIterator.collect : Nat → BitIterator → Option (List Bool)
  | 0, _ => none
  | fuel + 1, it =>
    match it.next with
    | none => none
    | some (none, _) => some []
    | some (some b, it2) => (BitIterator.collect fuel it2).map (b :: ·)

/-- `BitView::iter_bits` (`src/lib.rs:183-188`): a fresh iterator at `i = 0`. -/
def BitView.iter_bits (v : BitView) : BitIterator := ⟨v, 0⟩

/-- `BitVec::iter_bits` (`src/lib.rs:103-108`). -/
def BitVec.iter_bits (v : BitVec) : BitIterator := ⟨v.as_bit_view, 0⟩

/-- `BitView::to_bool_slice` (`src/lib.rs:201-204`): drains the iterator.
`none` only when the iterator aborts on an underflowing padding. -/
def BitView.to_bool_slice (v : BitView) : Option (List Bool) :=
  BitIterator.collect (8 * v.raw_data.length + 1) v.iter_bits

/-- `BitVec::to_bool_slice` (`src/lib.rs:134-137`). -/
def BitVec.to_bool_slice (v : BitVec) : Option (List Bool) :=
  v.as_bit_view.to_bool_slice

/-- `BitVec::extend_from_bits` (`src/lib.rs:70-90`).
Aligned fast path (`last_byte_padding == 0`): bulk-copies the view's bytes and
adopts its padding.  Unaligned slow path: appends every bit produced by the
view's iterator in order (collecting the iterator first is equivalent to the
source's `for` loop because the iterator does not depend on `self`). -/
def BitVec.extend_from_bits (v : BitVec) (bit_view : BitView) : Option BitVec :=
  if v.last_byte_padding = 0 then
    some ⟨v.raw_data ++ bit_view.raw_data, bit_view.last_byte_padding⟩
  else
    bit_view.to_bool_slice.map (fun bits => bits.foldl BitVec.append_bit v)

/-- `BitVec::from_bool_slice` (`src/lib.rs:121-130`): starts from
`with_capacity (bools.len())` and appends each element in order. -/
def BitVec.from_bool_slice (bools : List Bool) : BitVec :=
  bools.foldl BitVec.append_bit (BitVec.with_capacity bools.length)

/-- `BitVec::serialize` (`src/lib.rs:141-148`): appends to `buf` the padding
byte then the raw bytes (`buf.reserve` is an allocation hint with no
observable effect). -/
def BitVec.serialize (v : BitVec) (buf : List Byte) : List Byte :=
  buf ++ v.last_byte_padding :: v.raw_data

/-- `BitVec::deserialize` (`src/lib.rs:152-160`): first byte is the padding
(`input.get(0).ok_or(())?`), the rest is `raw_data`; no validation. -/
def BitVec.deserialize (input : List Byte) : Except Unit BitVec :=
  match input with
  | [] => Except.error ()
  | p :: rest => Except.ok ⟨rest, p⟩

/-- `BitView::serialize` (`src/lib.rs:230-239`): a fresh buffer holding the
padding byte then the raw bytes. -/
def BitView.serialize (v : BitView) : List Byte :=
  v.last_byte_padding :: v.raw_data

/-- `BitView::deserialize` (`src/lib.rs:243-251`), same shape as
`BitVec::deserialize`. -/
def BitView.deserialize (input : List Byte) : Except Unit BitView :=
  match input with
  | [] => Except.error ()
  | p :: rest => Except.ok ⟨rest, p⟩

/-! ## Specification-level definitions -/

/-- The data-structure invariant stated by the spec (§3): the padding is in
`[0,7]`, and an empty byte store has padding 0. -/
def PadInv (raw_data : List Byte) (last_byte_padding : Nat) : Prop :=
  last_byte_padding ≤ 7 ∧ (raw_data = [] → last_byte_padding = 0)

instance (raw_data : List Byte) (p : Nat) : Decidable (PadInv raw_data p) := by
  unfold PadInv; infer_instance

/-- Invariant on a `BitVec`. -/
def BitVec.Inv (v : BitVec) : Prop := PadInv v.raw_data v.last_byte_padding

instance (v : BitVec) : Decidable v.Inv := by unfold BitVec.Inv; infer_instance

/-- Invariant on a `BitView`. -/
def BitView.Inv (v : BitView) : Prop := PadInv v.raw_data v.last_byte_padding

instance (v : BitView) : Decidable v.Inv := by unfold BitView.Inv; infer_instance

/-- The padding bit-positions of the last byte hold zeros.  This is *stronger*
than the spec's invariant: append-built vectors satisfy it, but
`deserialize` / `from_padded_bytes` can produce values that do not, and on
those `append_bit`'s bitwise-OR need not write the appended bit faithfully. -/
def ZeroPad (raw_data : List Byte) (last_byte_padding : Nat) : Prop :=
  ∀ j < last_byte_padding, (raw_data.getLastD 0).testBit j = false

instance (raw_data : List Byte) (p : Nat) : Decidable (ZeroPad raw_data p) := by
  unfold ZeroPad; infer_instance

/-- `ZeroPad` on a `BitVec`. -/
def BitVec.zeroPad (v : BitVec) : Prop := ZeroPad v.raw_data v.last_byte_padding

instance (v : BitVec) : Decidable v.zeroPad := by unfold BitVec.zeroPad; infer_instance

/-- The meaningful bit sequence of a view: bit `k` (for `k < len_bits`) is bit
number `7 - (k % 8)` (MSB-first) of byte `k / 8`.  This is the reading the
spec assigns to the storage; the theorems relate the executable operations to
it. -/
def BitView.toBits (v : BitView) : List Bool :=
  (List.range v.len_bits).map (fun k => Nat.testBit (v.raw_data.getD (k / 8) 0) (7 - k % 8))

/-- The meaningful bit sequence of a `BitVec`. -/
def BitVec.toBits (v : BitVec) : List Bool := v.as_bit_view.toBits

/-! ## Iterator lemmas -/

/-- A bit written by `(cond b 1 0) <<< s` sits exactly at position `s`. -/
lemma testBit_bit_shift (b : Bool) (s j : Nat) :
    ((cond b 1 0) <<< s).testBit j = (b && decide (j = s)) := by
  cases b with
  | false => simp
  | true =>
    show Nat.testBit (1 <<< s) j = (true && decide (j = s))
    rw [Nat.testBit_shiftLeft, Bool.true_and]
    rcases Nat.lt_or_ge j s with h | h
    · rw [decide_eq_false (by omega), decide_eq_false (by omega), Bool.false_and]
    · rw [decide_eq_true h, Bool.true_and,
        show (1 : Nat) = 2 ^ 0 from rfl, Nat.testBit_two_pow]
      by_cases hj : j = s
      · rw [decide_eq_true hj, decide_eq_true (by omega)]
      · rw [decide_eq_false hj, decide_eq_false (by omega)]

/-- Under the invariant, `next` at an in-range cursor yields the MSB-first bit
`7 - i % 8` of byte `i / 8` and advances the cursor. -/
lemma BitIterator.next_yield (v : BitView) (i : Nat)
    (hp : v.last_byte_padding ≤ 7) (hi : i < v.len_bits) :
    BitIterator.next ⟨v, i⟩ =
      some (some (Nat.testBit (v.raw_data.getD (i / 8) 0) (7 - i % 8)), ⟨v, i + 1⟩) := by
  have hlen : i < v.raw_data.length * 8 - v.last_byte_padding := hi
  have hL : i / 8 < v.raw_data.length := by omega
  have hbyte : v.raw_data[i / 8]? = some v.raw_data[i / 8] := List.getElem?_eq_getElem hL
  rw [List.getD_eq_getElem _ _ hL]
  by_cases hlast : i / 8 = v.raw_data.length - 1
  · simp only [BitIterator.next, hbyte, if_pos hlast,
      if_neg (show ¬ 8 < v.last_byte_padding by omega),
      if_neg (show ¬ 8 - v.last_byte_padding ≤ i % 8 by omega)]
  · simp only [BitIterator.next, hbyte, if_neg hlast]

/-- Under the invariant, `next` at a cursor at or past `len_bits` reports
exhaustion and leaves the iterator state unchanged. -/
lemma BitIterator.next_exhausted (v : BitView) (i : Nat)
    (hp : v.last_byte_padding ≤ 7) (hi : v.len_bits ≤ i) :
    BitIterator.next ⟨v, i⟩ = some (none, ⟨v, i⟩) := by
  have hlen : v.raw_data.length * 8 - v.last_byte_padding ≤ i := hi
  rcases Nat.lt_or_ge (i / 8) v.raw_data.length with hL | hL
  · -- the cursor is inside the storage: this forces the last byte, inside
    -- its padding region
    have hbyte : v.raw_data[i / 8]? = some v.raw_data[i / 8] := List.getElem?_eq_getElem hL
    have hp0 : 0 < v.last_byte_padding := by omega
    have hlast : i / 8 = v.raw_data.length - 1 := by omega
    simp only [BitIterator.next, hbyte, if_pos hlast,
      if_neg (show ¬ 8 < v.last_byte_padding by omega),
      if_pos (show 8 - v.last_byte_padding ≤ i % 8 by omega)]
  · have hbyte : v.raw_data[i / 8]? = none :=
      List.getElem?_eq_none (by omega)
    simp only [BitIterator.next, hbyte]

/-- `toBits` has length `len_bits`. -/
lemma BitView.toBits_length (v : BitView) : v.toBits.length = v.len_bits := by
  simp [BitView.toBits]

/-- The `k`-th entry of `toBits` is the MSB-first bit `7 - k % 8` of byte
`k / 8`. -/
lemma BitView.toBits_getElem (v : BitView) (k : Nat) (h : k < v.toBits.length) :
    v.toBits[k] = Nat.testBit (v.raw_data.getD (k / 8) 0) (7 - k % 8) := by
  simp [BitView.toBits]

/-- Under the invariant, draining the iterator from cursor `i` with enough
fuel collects exactly the meaningful bits from `i` on. -/
lemma BitIterator.collect_eq_drop (v : BitView)
    (hp : v.last_byte_padding ≤ 7) :
    ∀ fuel i, i ≤ v.len_bits → v.len_bits - i < fuel →
      BitIterator.collect fuel ⟨v, i⟩ = some (v.toBits.drop i) := by
  intro fuel
  induction fuel with
  | zero => intro i _ h; omega
  | succ fuel ih =>
    intro i hi hfuel
    rcases Nat.lt_or_ge i v.len_bits with hlt | hge
    · have hbound : i < v.toBits.length := by rw [v.toBits_length]; exact hlt
      rw [List.drop_eq_getElem_cons hbound]
      simp only [BitIterator.collect, BitIterator.next_yield v i hp hlt,
        ih (i + 1) hlt (by omega), Option.map_some']
      rw [v.toBits_getElem i hbound]
    · rw [List.drop_eq_nil_of_le (by rw [v.toBits_length]; omega)]
      simp only [BitIterator.collect, BitIterator.next_exhausted v i hp hge]

/-- Under the invariant, `to_bool_slice` succeeds and returns the meaningful
bit sequence. -/
lemma BitView.to_bool_slice_eq_toBits (v : BitView) (hv : v.Inv) :
    v.to_bool_slice = some v.toBits := by
  have h := BitIterator.collect_eq_drop v hv.1 (8 * v.raw_data.length + 1) 0
    (Nat.zero_le _) (by unfold BitView.len_bits; omega)
  simpa [BitView.to_bool_slice, BitView.iter_bits] using h

/-! ## `append_bit` lemmas -/

/-- For a non-empty list, `getD` at the last index is `getLastD`. -/
lemma getD_last_eq_getLastD (l : List Byte) (d : Byte) (h : l ≠ []) :
    l.getD (l.length - 1) d = l.getLastD d := by
  rcases List.eq_nil_or_concat l with rfl | ⟨l2, a, rfl⟩
  · exact absurd rfl h
  · simp only [List.concat_eq_append]
    rw [List.getLastD_concat]
    have hlen : (l2 ++ [a]).length - 1 = l2.length := by simp
    rw [hlen, List.getD_append_right _ _ _ _ (le_refl _), Nat.sub_self]
    rfl

/-- `append_bit` preserves the spec invariant. -/
lemma BitVec.inv_append_bit (v : BitVec) (b : Bool) (hv : v.Inv) : (v.append_bit b).Inv := by
  obtain ⟨hp, hnil⟩ := hv
  unfold BitVec.Inv PadInv BitVec.append_bit
  by_cases h0 : v.last_byte_padding = 0
  · rw [if_pos h0]
    simp only []
    exact ⟨by omega, by simp⟩
  · rw [if_neg h0]
    simp only []
    exact ⟨by omega, by simp⟩

/-- `append_bit` preserves zero padding bits. -/
lemma BitVec.zeroPad_append_bit (v : BitVec) (b : Bool) (hz : v.zeroPad) :
    (v.append_bit b).zeroPad := by
  have hz' : ∀ j < v.last_byte_padding, (v.raw_data.getLastD 0).testBit j = false := hz
  unfold BitVec.zeroPad ZeroPad
  unfold BitVec.append_bit
  by_cases h0 : v.last_byte_padding = 0
  · rw [if_pos h0]
    simp only []
    intro j hj
    rw [List.getLastD_concat, testBit_bit_shift]
    have hj7 : j ≠ 7 := by omega
    simp [hj7]
  · rw [if_neg h0]
    simp only []
    intro j hj
    rw [List.getLastD_concat, Nat.testBit_or, testBit_bit_shift,
      hz' j (by omega : j < v.last_byte_padding)]
    have hj1 : j ≠ v.last_byte_padding - 1 := by omega
    simp [hj1]

/-- Under the invariant, `append_bit` grows `len_bits` by exactly one. -/
lemma BitVec.len_bits_append_bit (v : BitVec) (b : Bool) (hv : v.Inv) :
    (v.append_bit b).len_bits = v.len_bits + 1 := by
  obtain ⟨hp, hnil⟩ := hv
  unfold BitVec.append_bit BitVec.len_bits
  by_cases h0 : v.last_byte_padding = 0
  · rw [if_pos h0]
    simp only [List.length_append, List.length_cons, List.length_nil]
    omega
  · rw [if_neg h0]
    have hne : v.raw_data ≠ [] := fun h => h0 (hnil h)
    have hL : 1 ≤ v.raw_data.length := List.length_pos.mpr hne
    simp only [List.length_append, List.length_dropLast, List.length_cons,
      List.length_nil]
    omega

/-- `toBits` of a `BitVec` has length `len_bits`. -/
lemma BitVec.length_toBits (v : BitVec) : v.toBits.length = v.len_bits :=
  v.as_bit_view.toBits_length

/-- `toBits` of a `BitVec`, elementwise. -/
lemma BitVec.getElem_toBits (v : BitVec) (k : Nat) (h : k < v.toBits.length) :
    v.toBits[k] = Nat.testBit (v.raw_data.getD (k / 8) 0) (7 - k % 8) :=
  v.as_bit_view.toBits_getElem k h

/-- Under the invariant with zero padding bits, `append_bit` appends exactly
the given bit to the meaningful bit sequence. -/
lemma BitVec.toBits_append_bit (v : BitVec) (b : Bool) (hv : v.Inv) (hz : v.zeroPad) :
    (v.append_bit b).toBits = v.toBits ++ [b] := by
  obtain ⟨hp, hnil⟩ := hv
  have hz' : ∀ j < v.last_byte_padding, (v.raw_data.getLastD 0).testBit j = false := hz
  have hlen1 : (v.append_bit b).toBits.length = v.toBits.length + 1 := by
    rw [BitVec.length_toBits, BitVec.length_toBits]
    exact v.len_bits_append_bit b ⟨hp, hnil⟩
  apply List.ext_getElem
  · rw [hlen1]; simp
  intro k h1 h2
  have hkn : k < v.len_bits + 1 := by
    rw [BitVec.length_toBits, BitVec.length_toBits v] at hlen1
    rw [BitVec.length_toBits] at h1
    omega
  rw [BitVec.getElem_toBits _ k h1]
  rcases Nat.lt_or_ge k v.len_bits with hk | hk
  · -- a pre-existing bit: unchanged
    rw [List.getElem_append_left (by rw [v.length_toBits]; exact hk)]
    rw [BitVec.getElem_toBits v k (by rw [v.length_toBits]; exact hk)]
    unfold BitVec.len_bits at hk
    unfold BitVec.append_bit
    by_cases h0 : v.last_byte_padding = 0
    · rw [if_pos h0]
      simp only []
      have hL : k / 8 < v.raw_data.length := by omega
      rw [List.getD_append _ _ _ _ hL]
    · rw [if_neg h0]
      simp only []
      have hne : v.raw_data ≠ [] := fun h => h0 (hnil h)
      have hL1 : 1 ≤ v.raw_data.length := List.length_pos.mpr hne
      have hdl : v.raw_data.dropLast.length = v.raw_data.length - 1 :=
        List.length_dropLast _
      rcases Nat.lt_or_ge (k / 8) (v.raw_data.length - 1) with hk8 | hk8
      · -- inside the unchanged prefix
        rw [List.getD_append _ _ _ _ (by omega)]
        rw [List.getD_eq_getElem _ _ (by omega : k / 8 < v.raw_data.dropLast.length),
          List.getD_eq_getElem _ _ (by omega : k / 8 < v.raw_data.length),
          List.getElem_dropLast]
      · -- at the last byte, below the written position
        have hk8e : k / 8 = v.raw_data.length - 1 := by omega
        have hmod : k % 8 < 8 - v.last_byte_padding := by omega
        have hrhs : v.raw_data.getD (k / 8) 0 = v.raw_data.getLastD 0 := by
          rw [hk8e]; exact getD_last_eq_getLastD v.raw_data 0 hne
        rw [hrhs, List.getD_append_right _ _ _ _ (by omega), hk8e, hdl, Nat.sub_self]
        have hlhs : ([v.raw_data.getLastD 0 |||
              (cond b 1 0) <<< (v.last_byte_padding - 1)].getD 0 0) =
            v.raw_data.getLastD 0 ||| (cond b 1 0) <<< (v.last_byte_padding - 1) := rfl
        rw [hlhs, Nat.testBit_or, testBit_bit_shift]
        have hne7 : ¬(7 - k % 8 = v.last_byte_padding - 1) := by omega
        simp [hne7]
  · -- the appended bit
    have hke : k = v.len_bits := by omega
    have hrhs : (v.toBits ++ [b])[k] = b := by
      rw [List.getElem_append_right (by rw [v.length_toBits]; omega)]
      have h0 : k - v.toBits.length = 0 := by rw [v.length_toBits]; omega
      simp [h0]
    rw [hrhs]
    unfold BitVec.len_bits at hke
    unfold BitVec.append_bit
    by_cases h0 : v.last_byte_padding = 0
    · -- the fresh byte `bit << 7`, read at position 7
      rw [if_pos h0]
      simp only []
      have hk8 : k / 8 = v.raw_data.length := by omega
      have hm : k % 8 = 0 := by omega
      rw [List.getD_append_right _ _ _ _ (by omega), hk8, Nat.sub_self]
      have hsing : ([(cond b 1 0) <<< 7].getD 0 0) = (cond b 1 0) <<< 7 := rfl
      rw [hsing, hm, testBit_bit_shift]
      simp
    · -- the last byte, read at the freshly written position `padding - 1`
      rw [if_neg h0]
      simp only []
      have hne : v.raw_data ≠ [] := fun h => h0 (hnil h)
      have hL1 : 1 ≤ v.raw_data.length := List.length_pos.mpr hne
      have hdl : v.raw_data.dropLast.length = v.raw_data.length - 1 :=
        List.length_dropLast _
      have hk8 : k / 8 = v.raw_data.length - 1 := by omega
      have hm : 7 - k % 8 = v.last_byte_padding - 1 := by omega
      rw [List.getD_append_right _ _ _ _ (by omega), hk8, hdl, Nat.sub_self]
      have hsing : ([v.raw_data.getLastD 0 |||
            (cond b 1 0) <<< (v.last_byte_padding - 1)].getD 0 0) =
          v.raw_data.getLastD 0 ||| (cond b 1 0) <<< (v.last_byte_padding - 1) := rfl
      rw [hsing, hm, Nat.testBit_or, testBit_bit_shift,
        hz' (v.last_byte_padding - 1) (by omega)]
      simp


/-! ## Bulk operations -/

/-- Folding `append_bit` over a bit list preserves both invariants and
appends the list to the meaningful bit sequence. -/
lemma BitVec.foldl_append_bit_spec (bs : List Bool) :
    ∀ v : BitVec, v.Inv → v.zeroPad →
      ((bs.foldl BitVec.append_bit v).Inv ∧ (bs.foldl BitVec.append_bit v).zeroPad) ∧
        (bs.foldl BitVec.append_bit v).toBits = v.toBits ++ bs := by
  induction bs with
  | nil => intro v hv hz; exact ⟨⟨hv, hz⟩, by simp⟩
  | cons b bs ih =>
    intro v hv hz
    simp only [List.foldl_cons]
    obtain ⟨⟨hI, hZ⟩, hT⟩ :=
      ih (v.append_bit b) (v.inv_append_bit b hv) (v.zeroPad_append_bit b hz)
    refine ⟨⟨hI, hZ⟩, ?_⟩
    rw [hT, v.toBits_append_bit b hv hz]
    simp

/-- `with_capacity` satisfies the invariant. -/
lemma BitVec.inv_with_capacity (n : Nat) : (BitVec.with_capacity n).Inv :=
  ⟨Nat.zero_le 7, fun _ => rfl⟩

/-- `with_capacity` has zero padding bits (vacuously). -/
lemma BitVec.zeroPad_with_capacity (n : Nat) : (BitVec.with_capacity n).zeroPad :=
  fun j hj => absurd hj (Nat.not_lt_zero j)

/-- `with_capacity` holds no meaningful bits. -/
lemma BitVec.toBits_with_capacity (n : Nat) : (BitVec.with_capacity n).toBits = [] := rfl

/-- `from_bool_slice` satisfies both invariants and its meaningful bit
sequence is exactly the input list. -/
lemma BitVec.from_bool_slice_spec (bs : List Bool) :
    (BitVec.from_bool_slice bs).Inv ∧ (BitVec.from_bool_slice bs).zeroPad ∧
      (BitVec.from_bool_slice bs).toBits = bs := by
  obtain ⟨⟨hI, hZ⟩, hT⟩ := BitVec.foldl_append_bit_spec bs (BitVec.with_capacity bs.length)
    (BitVec.inv_with_capacity _) (BitVec.zeroPad_with_capacity _)
  refine ⟨hI, hZ, ?_⟩
  rw [show BitVec.from_bool_slice bs = bs.foldl BitVec.append_bit (BitVec.with_capacity bs.length)
    from rfl, hT, BitVec.toBits_with_capacity]
  simp

/-- Under the invariant, `BitVec::to_bool_slice` succeeds and returns the
meaningful bit sequence. -/
lemma BitVec.to_bool_slice_some_toBits (v : BitVec) (hv : v.Inv) :
    v.to_bool_slice = some v.toBits :=
  v.as_bit_view.to_bool_slice_eq_toBits hv

/-- Concatenating byte buffers concatenates the meaningful bit sequences,
provided the left buffer is unpadded and the right padding fits its buffer. -/
lemma BitView.toBits_append_bytes (rv rw : List Byte) (pw : Nat)
    (hw : pw ≤ 8 * rw.length) :
    (BitView.mk (rv ++ rw) pw).toBits =
      (BitView.mk rv 0).toBits ++ (BitView.mk rw pw).toBits := by
  apply List.ext_getElem
  · simp only [BitView.toBits_length, List.length_append, BitView.len_bits]
    omega
  intro k h1 h2
  have hk : k < (rv.length + rw.length) * 8 - pw := by
    have := (BitView.mk (rv ++ rw) pw).toBits_length
    simp only [BitView.len_bits, List.length_append] at this
    omega
  rw [BitView.toBits_getElem _ k h1]
  simp only []
  rcases Nat.lt_or_ge k (rv.length * 8) with hkv | hkv
  · -- a bit of the left buffer
    rw [List.getElem_append_left (by
      simp only [BitView.toBits_length, BitView.len_bits]; omega)]
    rw [BitView.toBits_getElem _ k (by
      simp only [BitView.toBits_length, BitView.len_bits]; omega)]
    simp only []
    rw [List.getD_append _ _ _ _ (by omega)]
  · -- a bit of the right buffer
    rw [List.getElem_append_right (by
      simp only [BitView.toBits_length, BitView.len_bits]; omega)]
    rw [BitView.toBits_getElem _ _ (by
      simp only [BitView.toBits_length, BitView.len_bits, List.length_append] at h1 ⊢
      omega)]
    simp only [BitView.toBits_length, BitView.len_bits]
    rw [List.getD_append_right _ _ _ _ (by omega)]
    have e1 : k / 8 - rv.length = (k - (rv.length * 8 - 0)) / 8 := by omega
    have e2 : 7 - k % 8 = 7 - (k - (rv.length * 8 - 0)) % 8 := by omega
    rw [e1, e2]

/-- `extend_from_bits` on invariant inputs (the owner additionally with zero
padding bits) succeeds, preserves the invariant and concatenates the
meaningful bit sequences. -/
lemma BitVec.extend_from_bits_toBits (v : BitVec) (w : BitView)
    (hv : v.Inv) (hzv : v.zeroPad) (hw : w.Inv) :
    ∃ v2, v.extend_from_bits w = some v2 ∧ v2.Inv ∧
      v2.toBits = v.toBits ++ w.toBits := by
  have hw8 : w.last_byte_padding ≤ 8 * w.raw_data.length := by
    obtain ⟨hp, hn⟩ := hw
    by_cases hwe : w.raw_data = []
    · rw [hwe, hn hwe]; simp
    · have := List.length_pos.mpr hwe; omega
  unfold BitVec.extend_from_bits
  by_cases h0 : v.last_byte_padding = 0
  · -- aligned fast path: byte-wise bulk copy
    rw [if_pos h0]
    refine ⟨_, rfl, ?_, ?_⟩
    · obtain ⟨hp, hn⟩ := hw
      exact ⟨hp, fun h => hn (by
        rcases List.append_eq_nil.mp h with ⟨_, h2⟩; exact h2)⟩
    · have hview : v.as_bit_view = BitView.mk v.raw_data 0 := by
        unfold BitVec.as_bit_view; rw [h0]
      show (BitView.mk (v.raw_data ++ w.raw_data) w.last_byte_padding).toBits =
        v.toBits ++ w.toBits
      rw [BitView.toBits_append_bytes _ _ _ hw8, BitVec.toBits, hview]
  · -- unaligned slow path: bit-by-bit append
    rw [if_neg h0, BitView.to_bool_slice_eq_toBits w hw]
    simp only [Option.map_some']
    obtain ⟨⟨hI, _⟩, hT⟩ := BitVec.foldl_append_bit_spec w.toBits v hv hzv
    exact ⟨_, rfl, hI, hT⟩

/-- `new` satisfies the invariant. -/
lemma BitVec.inv_new : BitVec.new.Inv := BitVec.inv_with_capacity 0

/-- `new` has zero padding bits (vacuously). -/
lemma BitVec.zeroPad_new : BitVec.new.zeroPad := BitVec.zeroPad_with_capacity 0

/-- `new` holds no meaningful bits. -/
lemma BitVec.toBits_new : BitVec.new.toBits = [] := rfl

/-- Folding `append_bit` preserves the invariant alone (no zero-padding
assumption needed). -/
lemma BitVec.inv_foldl_append_bit (bs : List Bool) :
    ∀ v : BitVec, v.Inv → (bs.foldl BitVec.append_bit v).Inv := by
  induction bs with
  | nil => exact fun v hv => hv
  | cons b bs ih => exact fun v hv => ih _ (v.inv_append_bit b hv)

/-- `extend_from_bits` on invariant inputs succeeds and preserves the
invariant (no zero-padding assumption needed). -/
lemma BitVec.extend_from_bits_inv (v : BitVec) (w : BitView)
    (hv : v.Inv) (hw : w.Inv) :
    ∃ v2, v.extend_from_bits w = some v2 ∧ v2.Inv := by
  unfold BitVec.extend_from_bits
  by_cases h0 : v.last_byte_padding = 0
  · rw [if_pos h0]
    exact ⟨_, rfl, hw.1, fun h => hw.2 (List.append_eq_nil.mp h).2⟩
  · rw [if_neg h0, BitView.to_bool_slice_eq_toBits w hw]
    simp only [Option.map_some']
    exact ⟨_, rfl, BitVec.inv_foldl_append_bit _ v hv⟩


example :
    (BitVec.from_bool_slice [false, true, false, true, false, true]).len_bits = 6 ∧
    (BitVec.from_bool_slice [false, true, false, true, false, true]).least_len_bytes = 1 := by
  decide

example :
    (BitVec.from_bool_slice [true, true, false, true, false, true, false, true]).to_bool_slice =
      some [true, true, false, true, false, true, false, true] := by
  decide

example :
    (BitVec.from_bool_slice [true, false, false, true, false]).extend_from_bits
      (BitVec.from_bool_slice [true, false, false, false, false, true]).as_bit_view =
    some (BitVec.from_bool_slice
      [true, false, false, true, false, true, false, false, false, false, true]) := by
  decide

/-! ## Claim theorems -/

/-- C1: for every finite boolean sequence `b`, building a `BitVec` with
`from_bool_slice b` and reading it back with `to_bool_slice` yields exactly
`b`, element for element and in order. -/
theorem from_to_bool_slice_round_trip (bs : List Bool) :
    (BitVec.from_bool_slice bs).to_bool_slice = some bs := by
  obtain ⟨hI, _, hT⟩ := BitVec.from_bool_slice_spec bs
  rw [BitVec.to_bool_slice_some_toBits _ hI, hT]

/-- C2: serializing any `BitVec` into an empty buffer and deserializing the
result succeeds and yields a structurally equal `BitVec` (same `raw_data`,
same `last_byte_padding`). -/
theorem serialize_deserialize_round_trip (s : BitVec) :
    BitVec.deserialize (s.serialize []) = Except.ok s := rfl

/-- C6: both deserializers return the malformed-input error exactly on the
empty slice; every non-empty input is accepted with `input[0]` stored
verbatim as `last_byte_padding` (even values outside `[0,7]`) and
`input[1..]` as `raw_data`, with no further validation. -/
theorem deserialize_err_iff_empty (input : List Byte) :
    (BitVec.deserialize input = Except.error () ↔ input = []) ∧
    (BitView.deserialize input = Except.error () ↔ input = []) ∧
    ∀ p rest, input = p :: rest →
      BitVec.deserialize input = Except.ok ⟨rest, p⟩ ∧
      BitView.deserialize input = Except.ok ⟨rest, p⟩ := by
  rcases input with _ | ⟨p, rest⟩
  · refine ⟨by simp [BitVec.deserialize], by simp [BitView.deserialize], ?_⟩
    intro q qrest h
    cases h
  · refine ⟨by simp [BitVec.deserialize], by simp [BitView.deserialize], ?_⟩
    intro q qrest h
    cases h
    exact ⟨rfl, rfl⟩

/-- Witness for C6 at the concrete input `[9, 255]`: a padding byte far
outside `[0,7]` is accepted verbatim. -/
theorem deserialize_err_iff_empty_witness :
    BitVec.deserialize [9, 255] = Except.ok ⟨[255], 9⟩ ∧
    BitView.deserialize [9, 255] = Except.ok ⟨[255], 9⟩ :=
  (deserialize_err_iff_empty [9, 255]).2.2 9 [255] rfl

/-- C8: deserialization stores any padding byte `0..255` verbatim without
validation, and on the accepted input `[9]` the stored padding `9` exceeds
`8 * |raw_data| = 0`, so the unguarded `usize` subtraction in `len_bits`
underflows — the (truncated) result is not a valid bit count: it violates
`len_bits + padding = 8 * |raw_data|`.  The same happens for
`BitView::deserialize` and `BitView::len_bits`. -/
theorem deserialize_unvalidated_padding_underflow :
    (∀ p rest, p ≤ 255 → BitVec.deserialize (p :: rest) = Except.ok ⟨rest, p⟩) ∧
    (∃ input : List Byte, input ≠ [] ∧ ∃ v : BitVec,
      BitVec.deserialize input = Except.ok v ∧
      8 * v.raw_data.length < v.last_byte_padding ∧
      v.len_bits + v.last_byte_padding ≠ v.raw_data.length * 8) ∧
    (∃ input : List Byte, input ≠ [] ∧ ∃ w : BitView,
      BitView.deserialize input = Except.ok w ∧
      8 * w.raw_data.length < w.last_byte_padding ∧
      w.len_bits + w.last_byte_padding ≠ w.raw_data.length * 8) :=
  ⟨fun p rest hp => rfl,
   ⟨[9], by simp, ⟨[], 9⟩, rfl, by decide, by decide⟩,
   ⟨[9], by simp, ⟨[], 9⟩, rfl, by decide, by decide⟩⟩

/-- Witness for C8's universally quantified part at `p = 200`. -/
theorem deserialize_unvalidated_padding_underflow_witness :
    BitVec.deserialize [200, 17] = Except.ok ⟨[17], 200⟩ :=
  deserialize_unvalidated_padding_underflow.1 200 [17] (by decide)

/-- C9: `serialize` appends to the given buffer — the pre-existing contents
survive unchanged as a prefix — followed by exactly the padding byte and then
all raw bytes, in that order. -/
theorem serialize_appends_to_buffer (s : BitVec) (buf : List Byte) :
    s.serialize buf = buf ++ s.last_byte_padding :: s.raw_data ∧
    (s.serialize buf).take buf.length = buf := by
  refine ⟨rfl, ?_⟩
  unfold BitVec.serialize
  exact List.take_left buf _

/-- C4: over a view satisfying the padding invariant with `len_bits = n`, the
iterator emits exactly `n` boolean values — the `k`-th (0-based) being bit
`7 - (k mod 8)` (MSB-first) of byte `k / 8` — and then reports completion,
whatever the number of underlying storage bytes. -/
theorem iterator_emits_len_bits (v : BitView) (hv : v.Inv) :
    ∃ bits : List Bool,
      BitIterator.collect (8 * v.raw_data.length + 1) v.iter_bits = some bits ∧
      bits.length = v.len_bits ∧
      (∀ k, (h : k < bits.length) →
        bits[k] = Nat.testBit (v.raw_data.getD (k / 8) 0) (7 - k % 8)) ∧
      BitIterator.next ⟨v, v.len_bits⟩ = some (none, ⟨v, v.len_bits⟩) := by
  refine ⟨v.toBits, ?_, v.toBits_length, fun k h => v.toBits_getElem k h, ?_⟩
  · exact v.to_bool_slice_eq_toBits hv
  · exact BitIterator.next_exhausted v _ hv.1 (le_refl _)

/-- Witness for C4 on the 9-bit view `[0xA0, 0x80]` with padding 7. -/
theorem iterator_emits_len_bits_witness :
    (BitView.mk [160, 128] 7).Inv ∧
    ∃ bits : List Bool,
      BitIterator.collect (8 * (BitView.mk [160, 128] 7).raw_data.length + 1)
        (BitView.mk [160, 128] 7).iter_bits = some bits ∧
      bits.length = (BitView.mk [160, 128] 7).len_bits ∧
      (∀ k, (h : k < bits.length) →
        bits[k] = Nat.testBit ((BitView.mk [160, 128] 7).raw_data.getD (k / 8) 0)
          (7 - k % 8)) ∧
      BitIterator.next ⟨BitView.mk [160, 128] 7, (BitView.mk [160, 128] 7).len_bits⟩ =
        some (none, ⟨BitView.mk [160, 128] 7, (BitView.mk [160, 128] 7).len_bits⟩) :=
  ⟨by decide, iterator_emits_len_bits (BitView.mk [160, 128] 7) (by decide)⟩

/-- C5: under the invariant, `append_bit` pushes a fresh byte `bit << 7` with
padding 7 when `last_byte_padding = 0` (including the empty case), otherwise
ORs the bit into the last byte at position `last_byte_padding - 1` and
decrements the padding by exactly one; in both cases `len_bits` grows by
exactly one, and `n` appends starting from `new` leave `len_bits = n`. -/
theorem append_bit_spec (v : BitVec) (bit : Bool) (hv : v.Inv) :
    (v.last_byte_padding = 0 →
      v.append_bit bit = ⟨v.raw_data ++ [(cond bit 1 0) <<< 7], 7⟩) ∧
    (v.last_byte_padding ≠ 0 →
      (v.append_bit bit).raw_data =
        v.raw_data.dropLast ++
          [v.raw_data.getLastD 0 ||| ((cond bit 1 0) <<< (v.last_byte_padding - 1))] ∧
      (v.append_bit bit).last_byte_padding = v.last_byte_padding - 1) ∧
    (v.append_bit bit).len_bits = v.len_bits + 1 ∧
    ∀ bs : List Bool, (bs.foldl BitVec.append_bit BitVec.new).len_bits = bs.length := by
  refine ⟨?_, ?_, v.len_bits_append_bit bit hv, ?_⟩
  · intro h0
    unfold BitVec.append_bit
    rw [if_pos h0]
  · intro h0
    unfold BitVec.append_bit
    rw [if_neg h0]
    exact ⟨rfl, rfl⟩
  · intro bs
    obtain ⟨_, hT⟩ :=
      BitVec.foldl_append_bit_spec bs BitVec.new BitVec.inv_new BitVec.zeroPad_new
    have hlen := (bs.foldl BitVec.append_bit BitVec.new).length_toBits
    rw [hT, BitVec.toBits_new] at hlen
    simpa using hlen.symm

/-- Witness for C5 on the 5-bit vector `[0xA0]` with padding 3 and `bit =
true`. -/
theorem append_bit_spec_witness :
    (BitVec.mk [160] 3).Inv ∧
    ((BitVec.mk [160] 3).last_byte_padding = 0 →
      (BitVec.mk [160] 3).append_bit true =
        ⟨(BitVec.mk [160] 3).raw_data ++ [(cond true 1 0) <<< 7], 7⟩) ∧
    ((BitVec.mk [160] 3).last_byte_padding ≠ 0 →
      ((BitVec.mk [160] 3).append_bit true).raw_data =
        (BitVec.mk [160] 3).raw_data.dropLast ++
          [(BitVec.mk [160] 3).raw_data.getLastD 0 |||
            ((cond true 1 0) <<< ((BitVec.mk [160] 3).last_byte_padding - 1))] ∧
      ((BitVec.mk [160] 3).append_bit true).last_byte_padding =
        (BitVec.mk [160] 3).last_byte_padding - 1) ∧
    ((BitVec.mk [160] 3).append_bit true).len_bits = (BitVec.mk [160] 3).len_bits + 1 ∧
    ∀ bs : List Bool, (bs.foldl BitVec.append_bit BitVec.new).len_bits = bs.length :=
  ⟨by decide, append_bit_spec (BitVec.mk [160] 3) true (by decide)⟩

/-- C7: the data-structure invariant (`last_byte_padding ∈ [0,7]`, and empty
storage forces padding 0) holds after `new`, `with_capacity` and
`from_bool_slice`, and is preserved by `append_bit` and by
`extend_from_bits` whenever the argument view satisfies it. -/
theorem invariant_preservation :
    BitVec.new.Inv ∧
    (∀ n, (BitVec.with_capacity n).Inv) ∧
    (∀ bs, (BitVec.from_bool_slice bs).Inv) ∧
    (∀ (v : BitVec) (b : Bool), v.Inv → (v.append_bit b).Inv) ∧
    (∀ (v : BitVec) (w : BitView), v.Inv → w.Inv →
      ∃ v2, v.extend_from_bits w = some v2 ∧ v2.Inv) :=
  ⟨BitVec.inv_new, BitVec.inv_with_capacity,
   fun bs => (BitVec.from_bool_slice_spec bs).1,
   fun v b hv => v.inv_append_bit b hv,
   fun v w hv hw => v.extend_from_bits_inv w hv hw⟩

/-- Witness for C7's conditional parts on the 5-bit vector `[0xA0]` with
padding 3 and a 3-bit view. -/
theorem invariant_preservation_witness :
    ((BitVec.mk [160] 3).append_bit false).Inv ∧
    ∃ v2, (BitVec.mk [160] 3).extend_from_bits (BitView.mk [64] 5) = some v2 ∧ v2.Inv :=
  ⟨invariant_preservation.2.2.2.1 (BitVec.mk [160] 3) false (by decide),
   invariant_preservation.2.2.2.2 (BitVec.mk [160] 3) (BitView.mk [64] 5)
     (by decide) (by decide)⟩

/-- C3 counterexample: both arguments satisfy the spec's padding invariant,
yet the claim fails.  The owner `[0xFF]` with padding 3 has garbage (ones) in
its padding bit-positions; extending it with the all-zero 3-bit view takes
the slow path, whose bitwise-OR cannot clear those ones: the result reads
back as eight ones instead of `11111 ++ 000`. -/
theorem extend_from_bits_garbage_padding_counterexample :
    (BitVec.mk [255] 3).Inv ∧ (BitView.mk [0] 5).Inv ∧
    BitVec.extend_from_bits (BitVec.mk [255] 3) (BitView.mk [0] 5) =
      some (BitVec.mk [255] 0) ∧
    (BitVec.mk [255] 0).toBits ≠
      (BitVec.mk [255] 3).toBits ++ (BitView.mk [0] 5).toBits := by
  decide

/-- C3 (amended): additionally requiring the owner's padding bits to be zero
(`zeroPad`, which all append-built vectors satisfy), `extend_from_bits`
makes the owner's meaningful bit sequence its old sequence followed by every
meaningful bit of the view in order; and when the owner's padding is 0 the
byte-wise bulk-copy fast path yields the same meaningful bit sequence as
bit-by-bit appending would. -/
theorem extend_from_bits_spec (v : BitVec) (w : BitView)
    (hv : v.Inv) (hzv : v.zeroPad) (hw : w.Inv) :
    (∃ v2, v.extend_from_bits w = some v2 ∧ v2.toBits = v.toBits ++ w.toBits) ∧
    (v.last_byte_padding = 0 →
      ∃ v2, v.extend_from_bits w = some v2 ∧
        v2.toBits = (w.toBits.foldl BitVec.append_bit v).toBits) := by
  obtain ⟨v2, he, _, hT⟩ := v.extend_from_bits_toBits w hv hzv hw
  refine ⟨⟨v2, he, hT⟩, fun _ => ⟨v2, he, ?_⟩⟩
  obtain ⟨_, hT2⟩ := BitVec.foldl_append_bit_spec w.toBits v hv hzv
  rw [hT, hT2]

/-- Witness for C3 (amended): the 1-bit owner `[0x80]`/padding 7 (zero
padding bits) extended with a view whose own padding bits are garbage. -/
theorem extend_from_bits_spec_witness :
    ((BitVec.mk [128] 7).Inv ∧ (BitVec.mk [128] 7).zeroPad ∧ (BitView.mk [255] 5).Inv) ∧
    (∃ v2, (BitVec.mk [128] 7).extend_from_bits (BitView.mk [255] 5) = some v2 ∧
      v2.toBits = (BitVec.mk [128] 7).toBits ++ (BitView.mk [255] 5).toBits) ∧
    ((BitVec.mk [128] 7).last_byte_padding = 0 →
      ∃ v2, (BitVec.mk [128] 7).extend_from_bits (BitView.mk [255] 5) = some v2 ∧
        v2.toBits = ((BitView.mk [255] 5).toBits.foldl BitVec.append_bit
          (BitVec.mk [128] 7)).toBits) :=
  ⟨⟨by decide, by decide, by decide⟩,
   extend_from_bits_spec (BitVec.mk [128] 7) (BitView.mk [255] 5)
     (by decide) (by decide) (by decide)⟩

/-- C10 counterexample: a two-byte view accepted by `from_padded_bytes` with
padding 9 > 8 — its first `next()` call does *not* evaluate the underflowing
`8 - last_byte_padding` (the `&&` short-circuits because byte 0 is not the
final byte) and yields a bit instead of aborting. -/
theorem first_next_no_underflow_counterexample :
    (BitView.from_padded_bytes [0, 0] 9).raw_data ≠ [] ∧
    8 < (BitView.from_padded_bytes [0, 0] 9).last_byte_padding ∧
    BitIterator.next ⟨BitView.from_padded_bytes [0, 0] 9, 0⟩ =
      some (some false, ⟨BitView.from_padded_bytes [0, 0] 9, 1⟩) := by
  decide

/-- C10 (amended): `from_padded_bytes` accepts any bytes and padding
verbatim; for a *single-byte* view with padding > 8 the first `next()` call
evaluates the u8 subtraction `8 - last_byte_padding` and underflows;
generally, for any non-empty view with padding > 8 the call whose cursor
reaches the final byte underflows, so the iterator is not total; and under
the invariant `last_byte_padding ≤ 7` the subtraction never underflows —
`next` is total. -/
theorem iterator_underflow_spec :
    (∀ bytes p, BitView.from_padded_bytes bytes p = ⟨bytes, p⟩) ∧
    (∀ b p, 8 < p → BitIterator.next ⟨⟨[b], p⟩, 0⟩ = none) ∧
    (∀ bytes p, bytes ≠ [] → 8 < p →
      BitIterator.next ⟨⟨bytes, p⟩, 8 * (bytes.length - 1)⟩ = none) ∧
    (∀ (v : BitView) (i : Nat), v.last_byte_padding ≤ 7 →
      BitIterator.next ⟨v, i⟩ ≠ none) := by
  have hfinal : ∀ (bytes : List Byte) (p : Nat), bytes ≠ [] → 8 < p →
      BitIterator.next ⟨⟨bytes, p⟩, 8 * (bytes.length - 1)⟩ = none := by
    intro bytes p hne hp
    have hL : 1 ≤ bytes.length := List.length_pos.mpr hne
    have hLlt : (8 * (bytes.length - 1)) / 8 < bytes.length := by omega
    have hbyte : bytes[(8 * (bytes.length - 1)) / 8]? =
        some (bytes[(8 * (bytes.length - 1)) / 8]) :=
      List.getElem?_eq_getElem hLlt
    simp only [BitIterator.next, hbyte,
      if_pos (show (8 * (bytes.length - 1)) / 8 = bytes.length - 1 by omega),
      if_pos hp]
  refine ⟨fun _ _ => rfl, fun b p hp => ?_, hfinal, ?_⟩
  · have h := hfinal [b] p (by simp) hp
    simpa using h
  · intro v i hp
    rcases hbyte : v.raw_data[i / 8]? with _ | byte
    · simp [BitIterator.next, hbyte]
    · simp only [BitIterator.next, hbyte]
      split_ifs with h1 h2 h3
      · exact absurd h2 (by omega)
      · simp
      · simp
      · simp

/-- Witness for C10 (amended): padding 12 aborts the single-byte first call
and the final-byte call of a two-byte view; padding 3 never aborts. -/
theorem iterator_underflow_spec_witness :
    BitIterator.next ⟨⟨[7], 12⟩, 0⟩ = none ∧
    BitIterator.next ⟨⟨[7, 7], 12⟩, 8 * (([7, 7] : List Byte).length - 1)⟩ = none ∧
    BitIterator.next ⟨⟨[7], 3⟩, 0⟩ ≠ none :=
  ⟨iterator_underflow_spec.2.1 7 12 (by decide),
   iterator_underflow_spec.2.2.1 [7, 7] 12 (by decide) (by decide),
   iterator_underflow_spec.2.2.2 ⟨[7], 3⟩ 0 (by decide)⟩

end BitvecPadded
